import Mathlib

/-!
Verification of the ingestion pipeline of the chat-playstations scraper.

The definitions below are a shallow embedding of the Python source files
scraper/scraper.py and scraper/supabase_db.py.  Pure string processing
(Python str.strip, str.split, the two regular expressions) is modelled by
explicit recursion over character lists; the external collaborators
(crawl4ai fetching, the Gemini embedding API, the Postgres store, the text
splitter) appear as environment parameters; the persistent store is a list
of rows; floating point arithmetic of numpy is modelled over the reals.
-/

namespace Scraper

/-! ### Python string primitives

Models of str.strip() and str.split() with no arguments: both use the
Python whitespace class (space, tab, newline, carriage return, vertical
tab, form feed). -/

def isSpaceChar (c : Char) : Bool :=
  c == ' ' || c == '\t' || c == '\n' || c == '\r' || c == '\x0b' || c == '\x0c'

/-- Model of Python str.strip(): drop whitespace from both ends. -/
def pyStrip (s : String) : String :=
  ⟨((s.toList.dropWhile isSpaceChar).reverse.dropWhile isSpaceChar).reverse⟩

/-- Split a character list on whitespace runs, dropping empty pieces,
the accumulator holds the current word reversed. -/
def splitWsAux : List Char → List Char → List (List Char)
  | acc, [] => if acc = [] then [] else [acc.reverse]
  | acc, c :: cs =>
    if isSpaceChar c then
      if acc = [] then splitWsAux [] cs else acc.reverse :: splitWsAux [] cs
    else splitWsAux (c :: acc) cs

/-- Model of Python str.split() with no argument: whitespace-separated
words, empty strings never appear in the result. -/
def pyWords (s : String) : List String :=
  (splitWsAux [] s.toList).map (fun l => (⟨l⟩ : String))

/-- Does the pattern occur as a prefix of the character list? -/
def startsWithSeg : List Char → List Char → Bool
  | [], _ => true
  | _ :: _, [] => false
  | a :: as, b :: bs => a == b && startsWithSeg as bs

/-- Does the pattern occur as a contiguous substring of the list? -/
def hasSub (pat : List Char) : List Char → Bool
  | [] => startsWithSeg pat []
  | c :: t => startsWithSeg pat (c :: t) || hasSub pat t

/-! ### The markdown-link counter

Model of len(re.findall(r"\[.*?\]\(.*?\)", text)) from filter_chunks
(scraper.py line 67).  A match is "[" s "]" "(" t ")" where s and t
contain no newline (the dot does not match a newline), s is extended
lazily — past an unusable "]" only when no "(...)" part follows it — and
matches are counted left to right without overlap. -/

/-- Consume characters up to and including the closing character; fail on
a newline or the end of input (the lazy .*? with . excluding newlines). -/
def scanToChar (close : Char) : List Char → Option (List Char)
  | [] => none
  | c :: cs =>
    if c = '\n' then none
    else if c = close then some cs
    else scanToChar close cs

/-- After the "]" of a candidate link, require "(" t ")". -/
def parseParenPart : List Char → Option (List Char)
  | [] => none
  | c :: cs => if c = '(' then scanToChar ')' cs else none

/-- Scan for a "]" (no newline before it) whose following "(...)" part
matches; on failure at one "]" continue to the next (regex backtracking
of the lazy .*? inside the brackets). -/
def matchAfterBracket : List Char → Option (List Char)
  | [] => none
  | c :: cs =>
    if c = '\n' then none
    else if c = ']' then
      match parseParenPart cs with
      | some rest => some rest
      | none => matchAfterBracket cs
    else matchAfterBracket cs

/-- Fuel-indexed scan counting non-overlapping link matches left to right;
every recursive call strictly shrinks the character list, so fuel equal to
the length of the list never runs out. -/
def countLinksFuel : Nat → List Char → Nat
  | 0, _ => 0
  | _ + 1, [] => 0
  | fuel + 1, c :: cs =>
    if c = '[' then
      match matchAfterBracket cs with
      | some rest => 1 + countLinksFuel fuel rest
      | none => countLinksFuel fuel cs
    else countLinksFuel fuel cs

/-- Model of len(re.findall(r"\[.*?\]\(.*?\)", text)). -/
def countLinks (cs : List Char) : Nat := countLinksFuel cs.length cs

/-! ### The relevance filter (filter_chunks, scraper.py lines 42-73) -/

def MIN_CHUNK_LEN : Nat := 100
def MAX_CHUNK_LEN : Nat := 1000
def MIN_WORD_COUNT : Nat := 15

/-- MAX_LINK_RATIO = 0.3 in the source; the ratio test compares small
integer quotients whose distance from 3/10 far exceeds double rounding
error, so exact rational arithmetic is faithful. -/
def maxLinkRatio : ℚ := 3 / 10

/-- The RELEVANCE_KEYWORDS alternation, lowercase; the character class
ps[1-5] is expanded into its five instances. -/
def relevanceKeywords : List String :=
  ["playstation", "ps1", "ps2", "ps3", "ps4", "ps5", "psx", "dualsense",
   "dualshock", "console", "specs", "hardware", "blu-ray", "controller",
   "gpu", "cpu", "ram", "teraflops", "ssd", "hdmi", "sony", "game",
   "exclusive", "release", "update", "firmware", "store", "network",
   "psn", "trophy", "vita", "psp", "vr"]

/-- Model of RELEVANCE_KEYWORDS.search(text): the pattern is an
alternation of literals (after expanding ps[1-5]), searched
case-insensitively, i.e. some keyword is a substring of the lowercased
text. -/
def hasRelevanceKeyword (s : String) : Bool :=
  let low := s.toList.map Char.toLower
  relevanceKeywords.any (fun k => hasSub k.toList low)

/-- The per-chunk decision of filter_chunks: strip, then the length gate,
the word count gate, the link ratio gate and the keyword gate, in source
order; returns the stripped text when the chunk is kept. -/
def keepChunk (chunk : String) : Option String :=
  let text := pyStrip chunk
  let length := text.length
  if length < MIN_CHUNK_LEN ∨ MAX_CHUNK_LEN < length then none
  else if (pyWords text).length < MIN_WORD_COUNT then none
  else if 0 < countLinks text.toList ∧
      maxLinkRatio < (countLinks text.toList : ℚ) / ((pyWords text).length : ℚ) then none
  else if hasRelevanceKeyword text = false then none
  else some text

/-- filter_chunks (scraper.py lines 55-73): the loop appends the stripped
text of every kept chunk in input order. -/
def filter_chunks (chunks : List String) : List String :=
  chunks.filterMap keepChunk

/-! ### URL handling (urllib.parse, as used by crawl_site)

The crawler only uses urlparse(u).netloc and the fragment-stripped
roundtrip urlparse(u)._replace(fragment="").geturl().  For the URLs this
code handles (absolute http/https hrefs and network-path references) the
netloc is the text between the "://" separator (or a leading "//") and
the next "/", "?" or "#", and geturl after dropping the fragment is the
original string truncated at its first "#". -/

/-- The netloc runs until the first "/", "?" or "#". -/
def takeNetloc : List Char → List Char
  | [] => []
  | c :: cs => if c = '/' ∨ c = '?' ∨ c = '#' then [] else c :: takeNetloc cs

/-- Characters following the first "://" separator, if any. -/
def findSchemeSep : List Char → Option (List Char)
  | ':' :: '/' :: '/' :: rest => some rest
  | _ :: cs => findSchemeSep cs
  | [] => none

/-- Model of urlparse(url).netloc. -/
def netlocOf (url : String) : String :=
  match url.toList with
  | '/' :: '/' :: rest => ⟨takeNetloc rest⟩
  | cs =>
    match findSchemeSep cs with
    | some rest => ⟨takeNetloc rest⟩
    | none => ⟨[]⟩

/-- Model of urlparse(href)._replace(fragment="").geturl(): the href up
to its first "#". -/
def stripFragment (url : String) : String :=
  ⟨url.toList.takeWhile (fun c => c != '#')⟩

/-- The link-discovery loop of crawl_site (scraper.py lines 151-158):
for each internal link href in order, when the href is nonempty, not in
the visited set (checked on the raw href, before fragment stripping) and
its netloc equals the job's base domain, append its fragment-stripped
form to the queue. -/
def discoverLinks (base_domain : String) (visited : List String) (hrefs : List String) : List String :=
  hrefs.foldl (fun queue href =>
    if !(href == "") && !(visited.contains href) && (netlocOf href == base_domain)
    then queue ++ [stripFragment href]
    else queue) []

/-! ### The embedding client (embed_with_retry, scraper.py lines 105-120) -/

def EMBED_RETRIES : Nat := 5
def EMBED_RETRY_DELAY : Nat := 10

/-- The rate-limit classifier: str(e).lower() contains "429", "rate",
"quota" or "resource" (scraper.py line 112). -/
def isRateLimitErr (e : String) : Bool :=
  let m := e.toList.map Char.toLower
  hasSub ("429").toList m || hasSub ("rate").toList m ||
    hasSub ("quota").toList m || hasSub ("resource").toList m

/-- Outcome of embed_with_retry.  success carries the vectors and the
number of time.sleep calls performed; raised is an immediately
re-raised non-rate-limit provider error; exhausted is the final
RuntimeError after the retry budget is spent. -/
inductive EmbedOutcome (α : Type) where
  | success (value : α) (sleeps : Nat)
  | raised (err : String) (sleeps : Nat)
  | exhausted (err : String) (sleeps : Nat)

/-- The message of the terminal RuntimeError (scraper.py line 120). -/
def exhaustedMsg : String :=
  "Gemini embedding failed after " ++ toString EMBED_RETRIES ++ " retries"

/-- The retry loop body: call is the provider indexed by attempt number
(attempt 1 is the first try); on a rate-limit error sleep and move to the
next attempt while budget remains, on any other error re-raise. -/
def embedAux {α : Type} (call : Nat → Except String α) : Nat → Nat → Nat → EmbedOutcome α
  | _, sleeps, 0 => .exhausted exhaustedMsg sleeps
  | attempt, sleeps, remaining + 1 =>
    match call attempt with
    | .ok v => .success v sleeps
    | .error e =>
      if isRateLimitErr e then embedAux call (attempt + 1) (sleeps + 1) remaining
      else .raised e sleeps

/-- embed_with_retry: for attempt in range(1, EMBED_RETRIES + 1). -/
def embed_with_retry {α : Type} (call : Nat → Except String α) : EmbedOutcome α :=
  embedAux call 1 0 EMBED_RETRIES

/-! ### The persistent store (store_chunks, supabase_db.py lines 53-73) -/

/-- Embedding vectors; numpy float arithmetic is modelled over ℝ. -/
abbrev Vec := List ℝ

/-- A row of the playstation_content table (the columns store_chunks
writes; scraped_at is an abstract timestamp). -/
structure Row where
  text : String
  embedding : Vec
  source_url : String
  page_title : String
  scraped_at : Nat

/-- store_chunks: DELETE FROM playstation_content WHERE source_url = url,
then INSERT one row per (chunk, vector) pair of zip(chunks, vectors),
all with scraped_at = now, committed together. -/
def store_chunks (url title : String) (chunks : List String) (vectors : List Vec)
    (now : Nat) (store : List Row) : List Row :=
  let remaining := store.filter (fun r => !(r.source_url == url))
  remaining ++ (chunks.zip vectors).map (fun cv =>
    ⟨cv.1, cv.2, url, title, now⟩)

/-! ### The deduplicator (deduplicate, scraper.py lines 76-102)

np.dot on two equal-length 1-d arrays is the sum of pairwise products;
np.linalg.norm along axis 1 is the euclidean norm of each row; rows of
zero norm are divided by 1 instead (norms[norms == 0] = 1). -/

def DEDUP_THRESHOLD : ℝ := 0.95

/-- np.dot of two vectors. -/
def dot (v w : Vec) : ℝ := (List.zipWith (fun a b => a * b) v w).sum

/-- Euclidean norm of a row. -/
noncomputable def norm2 (v : Vec) : ℝ := Real.sqrt (dot v v)

/-- One row of arr / norms after norms[norms == 0] = 1. -/
noncomputable def normalize (v : Vec) : Vec :=
  let n := norm2 v
  let d := if n = 0 then 1 else n
  v.map (fun x => x / d)

/-- The inner any-loop: is chunk i a near duplicate of some already-kept
index j, i.e. is sim = np.dot(normed[i], normed[j]) > DEDUP_THRESHOLD
for some j in keep? -/
def isDupIn (normed : List Vec) (keep : List Nat) (i : Nat) : Prop :=
  ∃ j ∈ keep, DEDUP_THRESHOLD < dot (normed.getD i []) (normed.getD j [])

-- The greedy keep loop: process the indices in order, appending i to
-- keep exactly when it is not a near duplicate of an earlier kept index.
open Classical in
noncomputable def keepIndices (normed : List Vec) : List Nat → List Nat → List Nat
  | keep, [] => keep
  | keep, i :: rest =>
    if isDupIn normed keep i then keepIndices normed keep rest
    else keepIndices normed (keep ++ [i]) rest

/-- The kept indices of the deduplicate run on the given vectors. -/
noncomputable def dedupKeep (vectors : List Vec) : List Nat :=
  keepIndices (vectors.map normalize) [] (List.range (vectors.map normalize).length)

/-- deduplicate: on an empty vector list return both inputs unchanged;
otherwise keep the chunks and original vectors at the kept indices, in
order.  (Python indexes chunks[i] directly; the getD default is never
used when, as at every call site, the two lists have equal length.) -/
noncomputable def deduplicate (chunks : List String) (vectors : List Vec) :
    List String × List Vec :=
  if vectors.isEmpty then (chunks, vectors)
  else
    let keep := dedupKeep vectors
    (keep.map (fun i => chunks.getD i ""), keep.map (fun i => vectors.getD i []))

/-! ### The page pipeline (embed_and_store, scraper.py lines 181-197)

The text splitter and the embedding provider are external collaborators:
splitText models RecursiveCharacterTextSplitter.split_text, and
embedAttempt gives the provider's response to the attempt-indexed call
embeddings.embed_documents(chunks) inside embed_with_retry. -/

structure PipeEnv where
  splitText : String → List String
  embedAttempt : List String → Nat → Except String (List Vec)

/-- Result of one embed_and_store call: the store afterwards, whether the
embedding client was invoked at all, and the exception propagated to the
caller (none on a normal return). -/
structure PageResult where
  store : List Row
  embedCalled : Bool
  error : Option String

/-- embed_and_store: split, filter, and if no chunk survives log and
return with no embedding call and no store mutation; otherwise embed
with retry (propagating its failure), deduplicate, and replace the rows
for this url. -/
noncomputable def embed_and_store (env : PipeEnv) (url title markdown : String)
    (now : Nat) (store : List Row) : PageResult :=
  let raw_chunks := env.splitText markdown
  let chunks := filter_chunks raw_chunks
  if chunks.isEmpty then ⟨store, false, none⟩
  else
    match embed_with_retry (env.embedAttempt chunks) with
    | .success vectors _ =>
      let p := deduplicate chunks vectors
      ⟨store_chunks url title p.1 p.2 now store, true, none⟩
    | .raised e _ => ⟨store, true, some e⟩
    | .exhausted e _ => ⟨store, true, some e⟩

/-! ### The crawl frontier controller (crawl_site, scraper.py lines 123-178)

The fetch capability, the freshness check and the page pipeline outcome
are the job's collaborators.  fetch url = none models an exception from
crawler.arun; a FetchResult with internalLinks = none models a result
whose links mapping has no "internal" key (or is empty); a markdown
attribute that is falsy is modelled by both markdown fields empty, which
the fit-then-raw fallback treats identically. -/

structure FetchResult where
  success : Bool
  internalLinks : Option (List String)
  fitMarkdown : String
  rawMarkdown : String

structure CrawlEnv where
  recentlyScraped : String → Bool
  fetch : String → Option FetchResult
  pipelineRaises : String → Bool

/-- The loop state: the frontier queue, the visited set (as a list) and
pages_processed. -/
structure CrawlState where
  queue : List String
  visited : List String
  pages_processed : Nat

/-- The while loop of crawl_site, with fuel for the unbounded iteration
count; when fuel runs out the current state is returned (all theorems
below either hold for every fuel or exhibit a run that finishes within
its fuel).  Each iteration: stop unless the queue is nonempty and
pages_processed < max_pages; pop; skip if visited; mark visited; skip if
recently scraped; fetch (skip on exception or unsuccessful result);
enqueue discovered same-domain links; resolve fit-then-raw markdown and
skip if empty; run the pipeline, incrementing pages_processed unless it
raises. -/
def crawlLoop (env : CrawlEnv) (base_domain : String) (max_pages : Nat) :
    Nat → List String → List String → Nat → CrawlState
  | 0, queue, visited, pages => ⟨queue, visited, pages⟩
  | _ + 1, [], visited, pages => ⟨[], visited, pages⟩
  | fuel + 1, url :: rest, visited, pages =>
    if max_pages ≤ pages then ⟨url :: rest, visited, pages⟩
    else if visited.contains url then crawlLoop env base_domain max_pages fuel rest visited pages
    else
      let visited' := url :: visited
      if env.recentlyScraped url then crawlLoop env base_domain max_pages fuel rest visited' pages
      else
        match env.fetch url with
        | none => crawlLoop env base_domain max_pages fuel rest visited' pages
        | some res =>
          if res.success = false then crawlLoop env base_domain max_pages fuel rest visited' pages
          else
            let queue' := rest ++ discoverLinks base_domain visited' (res.internalLinks.getD [])
            let markdown := if pyStrip res.fitMarkdown == "" then pyStrip res.rawMarkdown
              else pyStrip res.fitMarkdown
            if markdown == "" then crawlLoop env base_domain max_pages fuel queue' visited' pages
            else if env.pipelineRaises url then
              crawlLoop env base_domain max_pages fuel queue' visited' pages
            else crawlLoop env base_domain max_pages fuel queue' visited' (pages + 1)

/-- The result of the crawl_site coroutine: the final loop state, and the
value the coroutine returns to its caller.  The function body ends with a
log statement and has no return statement, so the Python return value is
None, modelled as none. -/
structure CrawlOutcome where
  final : CrawlState
  ret : Option Nat

/-- crawl_site: base_domain = urlparse(start_url).netloc, frontier seeded
with [start_url], empty visited set, pages_processed = 0. -/
def crawl_site (env : CrawlEnv) (start_url : String) (max_pages : Nat) (fuel : Nat) :
    CrawlOutcome :=
  ⟨crawlLoop env (netlocOf start_url) max_pages fuel [start_url] [] 0, none⟩

/-! ### Concrete data used by the witnesses, counterexamples and
boundary checks -/

def c8str : String := "The playstation console hardware specs include a custom gpu with fast memory and a very large ssd drive inside."

def c9str : String := "[a](b) [c](d) link heavy"

def c10str : String := "Sony dualsense controller hardware delivers haptic feedback and adaptive triggers for modern console game play sessions everywhere."

def rowOldSame : Row := ⟨"old", [], "https://e/p", "t0", 0⟩
def rowOther : Row := ⟨"other", [], "https://e/q", "t0", 0⟩

def pipeEnvTiny : PipeEnv := ⟨fun _ => ["tiny"], fun _ _ => Except.error ("x")⟩
def rowPrior : Row := ⟨"prior", [], "https://e/p", "t0", 0⟩

def rateErrText : String := "429 rate limit"
def quotaErrText : String := "quota exceeded"
def boomErrText : String := "boom"
def call4 : Nat → Except String Unit :=
  fun i => if i ≤ 4 then Except.error rateErrText else Except.ok ()
def call5 : Nat → Except String Unit := fun _ => Except.error quotaErrText
def callBoom : Nat → Except String Unit := fun _ => Except.error boomErrText

/-- A concrete crawl environment whose frontier yields exactly five
indexable pages: the start page links to four further same-domain pages,
every fetch succeeds with nonempty markdown, nothing is recently
scraped, and the pipeline never raises. -/
def env5 : CrawlEnv :=
  ⟨fun _ => false,
   fun u => some ⟨true,
     some (if u = "https://example.com/" then
       ["https://example.com/p1", "https://example.com/p2",
        "https://example.com/p3", "https://example.com/p4"] else []),
     "playstation page", ""⟩,
   fun _ => false⟩

/-- The earlier kept index j does not flag the later index i as a
duplicate. -/
def noSim (normed : List Vec) (j i : Nat) : Prop :=
  ¬ DEDUP_THRESHOLD < dot (normed.getD i []) (normed.getD j [])

/-! The boundary vectors: exact rational points on the unit sphere whose
dot products with the first basis vector are exactly 0.95 and 0.951. -/

noncomputable def u5 : Vec := [1, 0, 0, 0, 0]
noncomputable def v95 : Vec := [19 / 20, 5 / 20, 3 / 20, 2 / 20, 1 / 20]
noncomputable def v951 : Vec := [951 / 1000, 309 / 1000, 9 / 1000, 6 / 1000, 1 / 1000]

/-! ## Totality of the link-counting scan -/

theorem scanToChar_length {close : Char} :
    ∀ {cs rest : List Char}, scanToChar close cs = some rest → rest.length < cs.length := by
  intro cs
  induction cs with
  | nil => intro rest h; simp [scanToChar] at h
  | cons c cs ih =>
    intro rest h
    simp only [scanToChar] at h
    split_ifs at h with h1 h2
    · injection h with h
      subst h
      exact Nat.lt_succ_self _
    · exact Nat.lt_succ_of_lt (ih h)

theorem parseParenPart_length :
    ∀ {cs rest : List Char}, parseParenPart cs = some rest → rest.length < cs.length := by
  intro cs rest h
  cases cs with
  | nil => simp [parseParenPart] at h
  | cons c cs' =>
    simp only [parseParenPart] at h
    split_ifs at h with h1
    exact Nat.lt_succ_of_lt (scanToChar_length h)

theorem matchAfterBracket_length :
    ∀ {cs rest : List Char}, matchAfterBracket cs = some rest → rest.length < cs.length := by
  intro cs
  induction cs with
  | nil => intro rest h; simp [matchAfterBracket] at h
  | cons c cs ih =>
    intro rest h
    simp only [matchAfterBracket] at h
    split_ifs at h with h1 h2
    · cases hp : parseParenPart cs with
      | some r =>
        rw [hp] at h
        simp at h
        subst h
        exact Nat.lt_succ_of_lt (parseParenPart_length hp)
      | none =>
        rw [hp] at h
        exact Nat.lt_succ_of_lt (ih h)
    · exact Nat.lt_succ_of_lt (ih h)

/-- The fuel bound is irrelevant as soon as it dominates the length of
the input, because every step of the scan strictly shrinks the input:
countLinks is the total fixpoint of the scan, not a truncation. -/
theorem countLinksFuel_congr :
    ∀ (fuel₁ : Nat) {fuel₂ : Nat} {cs : List Char}, cs.length ≤ fuel₁ → cs.length ≤ fuel₂ →
      countLinksFuel fuel₁ cs = countLinksFuel fuel₂ cs := by
  intro fuel₁
  induction fuel₁ using Nat.strong_induction_on with
  | _ fuel₁ ih =>
    intro fuel₂ cs h1 h2
    match fuel₁, fuel₂, cs with
    | 0, 0, cs => rfl
    | 0, _ + 1, cs => cases cs with
      | nil => rfl
      | cons c cs => simp at h1
    | _ + 1, 0, cs => cases cs with
      | nil => rfl
      | cons c cs => simp at h2
    | f₁ + 1, f₂ + 1, [] => rfl
    | f₁ + 1, f₂ + 1, c :: cs =>
      simp only [countLinksFuel]
      simp only [List.length_cons, Nat.succ_le_succ_iff] at h1 h2
      split_ifs with hc
      · cases hm : matchAfterBracket cs with
        | some rest =>
          have hlt := matchAfterBracket_length hm
          have e := ih f₁ (Nat.lt_succ_self _) (show rest.length ≤ f₁ by omega)
            (show rest.length ≤ f₂ by omega)
          show 1 + countLinksFuel f₁ rest = 1 + countLinksFuel f₂ rest
          rw [e]
        | none =>
          show countLinksFuel f₁ cs = countLinksFuel f₂ cs
          exact ih f₁ (Nat.lt_succ_self _) h1 h2
      · exact ih f₁ (Nat.lt_succ_self _) h1 h2

/-! ## Properties of the relevance filter -/

/-- What a successful keepChunk run guarantees: the kept text is the
stripped chunk and every gate passed. -/
theorem keepChunk_some {chunk t : String} (h : keepChunk chunk = some t) :
    t = pyStrip chunk ∧ MIN_CHUNK_LEN ≤ t.length ∧ t.length ≤ MAX_CHUNK_LEN ∧
      MIN_WORD_COUNT ≤ (pyWords t).length ∧ hasRelevanceKeyword t = true := by
  simp only [keepChunk] at h
  split_ifs at h with h1 h2 h3 h4
  injection h with h
  subst h
  push_neg at h1 h2
  refine ⟨rfl, h1.1, h1.2, h2, ?_⟩
  simpa using h4

/-- Claim C8: every chunk kept by the relevance filter has trimmed length
between 100 and 1000 characters inclusive and at least 15 words; a chunk
violating either bound is rejected. -/
theorem c8_chunk_bounds :
    (∀ chunk t, keepChunk chunk = some t →
      100 ≤ t.length ∧ t.length ≤ 1000 ∧ 15 ≤ (pyWords t).length) ∧
    (∀ chunk, ((pyStrip chunk).length < 100 ∨ 1000 < (pyStrip chunk).length ∨
        (pyWords (pyStrip chunk)).length < 15) → keepChunk chunk = none) ∧
    (∀ chunks t, t ∈ filter_chunks chunks →
      100 ≤ t.length ∧ t.length ≤ 1000 ∧ 15 ≤ (pyWords t).length) := by
  have hkeep : ∀ chunk t, keepChunk chunk = some t →
      100 ≤ t.length ∧ t.length ≤ 1000 ∧ 15 ≤ (pyWords t).length := by
    intro chunk t h
    obtain ⟨-, hmin, hmax, hwords, -⟩ := keepChunk_some h
    exact ⟨hmin, hmax, hwords⟩
  refine ⟨hkeep, ?_, ?_⟩
  · intro chunk hviol
    simp only [keepChunk]
    split_ifs with h1 h2 h3 h4
    · rfl
    · rfl
    · rfl
    · rfl
    · push_neg at h1 h2
      simp only [MIN_CHUNK_LEN, MAX_CHUNK_LEN, MIN_WORD_COUNT] at h1 h2
      rcases hviol with hv | hv | hv <;> omega
  · intro chunks t ht
    simp only [filter_chunks] at ht
    rcases List.mem_filterMap.mp ht with ⟨c, _, hk⟩
    exact hkeep c t hk


theorem c8_chunk_bounds_witness :
    keepChunk c8str = some c8str ∧
      (100 ≤ c8str.length ∧ c8str.length ≤ 1000 ∧ 15 ≤ (pyWords c8str).length) :=
  ⟨by decide, c8_chunk_bounds.1 c8str c8str (by decide)⟩

/-- Claim C9: a chunk whose link count L and word count W satisfy
L / W > 0.3 is always rejected, whatever its other properties. -/
theorem c9_link_ratio_reject :
    ∀ chunk, maxLinkRatio <
        (countLinks (pyStrip chunk).toList : ℚ) / ((pyWords (pyStrip chunk)).length : ℚ) →
      keepChunk chunk = none := by
  intro chunk hratio
  simp only [keepChunk]
  split_ifs with h1 h2 h3 h4
  · rfl
  · rfl
  · rfl
  · rfl
  · exfalso
    apply h3
    refine ⟨?_, hratio⟩
    by_contra h0
    push_neg at h0
    have hz : countLinks (pyStrip chunk).toList = 0 := by omega
    rw [hz] at hratio
    norm_num [maxLinkRatio] at hratio


theorem c9_link_ratio_reject_witness :
    (maxLinkRatio < (countLinks (pyStrip c9str).toList : ℚ) /
      ((pyWords (pyStrip c9str)).length : ℚ)) ∧ keepChunk c9str = none := by
  have h1 : countLinks (pyStrip c9str).toList = 2 := by decide
  have h2 : (pyWords (pyStrip c9str)).length = 4 := by decide
  have hq : maxLinkRatio < (countLinks (pyStrip c9str).toList : ℚ) /
      ((pyWords (pyStrip c9str)).length : ℚ) := by
    rw [h1, h2]
    norm_num [maxLinkRatio]
  exact ⟨hq, c9_link_ratio_reject c9str hq⟩

/-- The filtered list is a subsequence of the stripped inputs. -/
theorem filter_chunks_sublist (chunks : List String) :
    (filter_chunks chunks).Sublist (chunks.map pyStrip) := by
  induction chunks with
  | nil => simp [filter_chunks]
  | cons c cs ih =>
    simp only [filter_chunks, List.filterMap_cons, List.map_cons] at *
    cases h : keepChunk c with
    | none => exact ih.cons _
    | some t =>
      have ht := (keepChunk_some h).1
      rw [ht]
      exact ih.cons₂ _

/-- Claim C10: the relevance filter returns an order-preserving
subsequence of the whitespace-stripped input chunks, and every returned
text is the stripped form of a kept input chunk. -/
theorem c10_filter_trimmed_sublist :
    ∀ chunks : List String,
      (filter_chunks chunks).Sublist (chunks.map pyStrip) ∧
      (∀ t ∈ filter_chunks chunks, ∃ c ∈ chunks, keepChunk c = some t ∧ t = pyStrip c) := by
  intro chunks
  refine ⟨filter_chunks_sublist chunks, ?_⟩
  intro t ht
  simp only [filter_chunks] at ht
  rcases List.mem_filterMap.mp ht with ⟨c, hc, hk⟩
  exact ⟨c, hc, hk, (keepChunk_some hk).1⟩


set_option maxRecDepth 8000 in
theorem c10_filter_trimmed_sublist_witness :
    (filter_chunks [c10str]).Sublist ([c10str].map pyStrip) ∧
      ∃ c ∈ [c10str], keepChunk c = some c10str ∧ c10str = pyStrip c :=
  ⟨(c10_filter_trimmed_sublist [c10str]).1,
   (c10_filter_trimmed_sublist [c10str]).2 c10str (by decide)⟩

/-! ## Replace semantics of the store -/

/-- Claim C4: a successful re-index that stores M chunks first deletes
every row of the url and then inserts the new rows, so afterwards the
rows for the url are exactly the M fresh ones and none survives from any
prior run. -/
theorem c4_replace_semantics :
    ∀ (url title : String) (chunks : List String) (vectors : List Vec) (now : Nat)
      (store : List Row), chunks.length = vectors.length →
      ((store_chunks url title chunks vectors now store).filter
          (fun r => r.source_url == url)
        = (chunks.zip vectors).map (fun cv => ⟨cv.1, cv.2, url, title, now⟩)) ∧
      ((store_chunks url title chunks vectors now store).filter
          (fun r => r.source_url == url)).length = chunks.length := by
  intro url title chunks vectors now store hlen
  have hdel : (store.filter (fun r => !(r.source_url == url))).filter
      (fun r => r.source_url == url) = [] := by
    rw [List.filter_filter]
    apply List.filter_eq_nil_iff.mpr
    intro r _
    cases hru : r.source_url == url <;> simp [hru]
  have hins : ((chunks.zip vectors).map
        (fun cv => (⟨cv.1, cv.2, url, title, now⟩ : Row))).filter
      (fun r => r.source_url == url)
      = (chunks.zip vectors).map (fun cv => ⟨cv.1, cv.2, url, title, now⟩) := by
    apply List.filter_eq_self.mpr
    intro r hr
    rcases List.mem_map.mp hr with ⟨cv, _, hrw⟩
    subst hrw
    simp
  have hmain : (store_chunks url title chunks vectors now store).filter
      (fun r => r.source_url == url)
      = (chunks.zip vectors).map (fun cv => ⟨cv.1, cv.2, url, title, now⟩) := by
    simp only [store_chunks]
    rw [List.filter_append, hdel, hins, List.nil_append]
  refine ⟨hmain, ?_⟩
  rw [hmain, List.length_map, List.length_zip, hlen, Nat.min_self]


theorem c4_replace_semantics_witness :
    (List.length ["a"] = List.length ([[(1 : ℝ)]] : List Vec)) ∧
      ((store_chunks ("https://e/p") ("t") ["a"] [[(1 : ℝ)]] 5 [rowOldSame, rowOther]).filter
          (fun r => r.source_url == "https://e/p")).length = List.length ["a"] :=
  ⟨rfl, (c4_replace_semantics ("https://e/p") ("t") ["a"] [[(1 : ℝ)]] 5
      [rowOldSame, rowOther] rfl).2⟩

/-! ## The zero-chunk early return of the page pipeline -/

/-- Claim C5: when filtering leaves no chunk, embed_and_store returns
without invoking the embedding client and without touching the store, so
the rows previously stored for the url stay as they are. -/
theorem c5_zero_chunk_noop :
    ∀ (env : PipeEnv) (url title markdown : String) (now : Nat) (store : List Row),
      filter_chunks (env.splitText markdown) = [] →
      embed_and_store env url title markdown now store = ⟨store, false, none⟩ := by
  intro env url title markdown now store h
  simp [embed_and_store, h]


theorem c5_zero_chunk_noop_witness :
    filter_chunks (pipeEnvTiny.splitText ("md")) = [] ∧
      embed_and_store pipeEnvTiny ("https://e/p") ("t") ("md") 3 [rowPrior]
        = ⟨[rowPrior], false, none⟩ :=
  ⟨by decide,
   c5_zero_chunk_noop pipeEnvTiny ("https://e/p") ("t") ("md") 3 [rowPrior] (by decide)⟩

/-! ## Frontier link discovery -/

/-- The enqueue loop is a filter of the hrefs followed by fragment
stripping. -/
theorem discoverLinks_foldl (base_domain : String) (visited : List String) :
    ∀ (hrefs acc : List String),
      hrefs.foldl (fun queue href =>
        if !(href == "") && !(visited.contains href) && (netlocOf href == base_domain)
        then queue ++ [stripFragment href] else queue) acc
      = acc ++ (hrefs.filter (fun h => !(h == "") && !(visited.contains h) &&
          (netlocOf h == base_domain))).map stripFragment := by
  intro hrefs
  induction hrefs with
  | nil => intro acc; simp
  | cons h hs ih =>
    intro acc
    by_cases hcond : (!(h == "") && !(visited.contains h) && (netlocOf h == base_domain)) = true
    · simp only [List.foldl_cons, List.filter_cons, if_pos hcond]
      rw [ih, List.map_cons]
      simp
    · simp only [List.foldl_cons, List.filter_cons, if_neg hcond]
      exact ih acc

/-- Claim C2 (amended): for each fetched page the controller enqueues, in
link order, the fragment-stripped form of every internal href that is
nonempty, not already visited (the check is on the raw href) and whose
host equals the job's domain; a URL is enqueued exactly when such an
href produced it, and links to other hosts are never enqueued.  Distinct
fragment variants of one URL yield equal frontier values but separate
frontier entries (see the counterexample). -/
theorem c2_frontier_enqueue :
    (∀ (d : String) (visited hrefs : List String),
      discoverLinks d visited hrefs =
        (hrefs.filter (fun h => !(h == "") && !(visited.contains h) &&
          (netlocOf h == d))).map stripFragment) ∧
    (∀ (d : String) (visited hrefs : List String) (u : String),
      u ∈ discoverLinks d visited hrefs ↔
        ∃ h ∈ hrefs, h ≠ "" ∧ h ∉ visited ∧ netlocOf h = d ∧ stripFragment h = u) ∧
    discoverLinks ("example.com") [] ["https://example.com/a", "https://other.com/b"]
      = ["https://example.com/a"] := by
  have heq : ∀ (d : String) (visited hrefs : List String),
      discoverLinks d visited hrefs =
        (hrefs.filter (fun h => !(h == "") && !(visited.contains h) &&
          (netlocOf h == d))).map stripFragment := by
    intro d visited hrefs
    simpa [discoverLinks] using discoverLinks_foldl d visited hrefs []
  refine ⟨heq, ?_, by decide⟩
  intro d visited hrefs u
  rw [heq]
  simp [List.mem_filter, List.mem_map, and_assoc]

/-- Claim C2 counterexample: two #section variants of one URL discovered
on the same page are enqueued as two frontier entries (the values are
equal but they do not collapse to a single entry). -/
theorem c2_duplicate_entries_counterexample :
    discoverLinks ("example.com") []
        ["https://example.com/page#s1", "https://example.com/page#s2"]
      = ["https://example.com/page", "https://example.com/page"] ∧
    discoverLinks ("example.com") []
        ["https://example.com/page#s1", "https://example.com/page#s2"]
      ≠ ["https://example.com/page"] :=
  ⟨by decide, by decide⟩

/-! ## The embedding retry policy -/

/-- Running the retry loop across n consecutive rate-limit failures
advances the attempt counter and the sleep count by n and consumes n
units of the remaining budget. -/
theorem embedAux_rate_run {α : Type} (call : Nat → Except String α) :
    ∀ (n a s r : Nat), n ≤ r →
      (∀ i, a ≤ i → i < a + n → ∃ e, call i = .error e ∧ isRateLimitErr e = true) →
      embedAux call a s r = embedAux call (a + n) (s + n) (r - n) := by
  intro n
  induction n with
  | zero => intro a s r _ _; simp
  | succ n ih =>
    intro a s r hle hrate
    obtain ⟨e, hce, hre⟩ := hrate a (le_refl a) (by omega)
    have hr : r = (r - 1) + 1 := by omega
    conv_lhs => rw [hr]
    simp only [embedAux, hce, hre, if_true]
    have hrec := ih (a + 1) (s + 1) (r - 1) (by omega)
      (fun i h1 h2 => hrate i (by omega) (by omega))
    rw [hrec]
    have e1 : a + 1 + n = a + (n + 1) := by omega
    have e2 : s + 1 + n = s + (n + 1) := by omega
    have e3 : r - 1 - n = r - (n + 1) := by omega
    rw [e1, e2, e3]

/-- Claim C3: the embedding client retries only on errors carrying one of
the rate-limit markers, sleeping before each retry, up to 5 attempts; it
succeeds with 4 sleeps when 4 rate-limit failures precede a success,
raises the terminal RuntimeError after 5 rate-limit failures without a
6th provider call (the result is fixed whatever the provider would do on
later attempts), and propagates any non-rate-limit error immediately with
no further attempt. -/
theorem c3_embed_retry :
    (∀ (α : Type) (call : Nat → Except String α) (v : α),
      (∀ i, 1 ≤ i → i ≤ 4 → ∃ e, call i = .error e ∧ isRateLimitErr e = true) →
      call 5 = .ok v → embed_with_retry call = .success v 4) ∧
    (∀ (α : Type) (call : Nat → Except String α),
      (∀ i, 1 ≤ i → i ≤ 5 → ∃ e, call i = .error e ∧ isRateLimitErr e = true) →
      embed_with_retry call = .exhausted exhaustedMsg 5) ∧
    (∀ (α : Type) (call : Nat → Except String α) (k : Nat) (e : String),
      1 ≤ k → k ≤ 5 →
      (∀ i, 1 ≤ i → i < k → ∃ e', call i = .error e' ∧ isRateLimitErr e' = true) →
      call k = .error e → isRateLimitErr e = false →
      embed_with_retry call = .raised e (k - 1)) := by
  refine ⟨?_, ?_, ?_⟩
  · intro α call v hrate hok
    have hrun := embedAux_rate_run call 4 1 0 5 (by omega)
      (fun i h1 h2 => hrate i h1 (by omega))
    simp only [embed_with_retry, EMBED_RETRIES]
    rw [hrun]
    norm_num
    simp [embedAux, hok]
  · intro α call hrate
    have hrun := embedAux_rate_run call 5 1 0 5 (by omega)
      (fun i h1 h2 => hrate i h1 (by omega))
    simp only [embed_with_retry, EMBED_RETRIES]
    rw [hrun]
    norm_num
    simp [embedAux]
  · intro α call k e hk1 hk5 hrate hce hre
    have hrun := embedAux_rate_run call (k - 1) 1 0 5 (by omega)
      (fun i h1 h2 => hrate i h1 (by omega))
    simp only [embed_with_retry, EMBED_RETRIES]
    rw [hrun]
    have e1 : 1 + (k - 1) = k := by omega
    have e2 : 0 + (k - 1) = k - 1 := by omega
    have e3 : 5 - (k - 1) = (5 - k) + 1 := by omega
    rw [e1, e2, e3]
    simp [embedAux, hce, hre]


theorem c3_embed_retry_witness :
    embed_with_retry call4 = .success () 4 ∧
    embed_with_retry call5 = .exhausted exhaustedMsg 5 ∧
    embed_with_retry callBoom = .raised boomErrText 0 := by
  refine ⟨?_, ?_, ?_⟩
  · refine c3_embed_retry.1 Unit call4 () (fun i h1 h2 => ⟨rateErrText, ?_, by decide⟩) rfl
    simp only [call4]
    rw [if_pos h2]
  · exact c3_embed_retry.2.1 Unit call5 (fun i h1 h2 => ⟨quotaErrText, rfl, by decide⟩)
  · exact c3_embed_retry.2.2 Unit callBoom 1 boomErrText (by norm_num) (by norm_num)
      (fun i h1 h2 => absurd h2 (by omega)) rfl (by decide)

/-! ## The crawl frontier controller -/


/-- Claim C1 (amended): the crawl loop processes at most max_pages pages
whatever environment, fuel and starting state with a count within budget;
it stops immediately (state unchanged) when the frontier is empty or
pages_processed has reached max_pages; and on the concrete five-page
frontier with max_pages = 2 it finishes with pages_processed = 2 (with
max_pages = 5 it indexes all five).  The final count is only logged: the
coroutine itself returns None (see the counterexample). -/
theorem c1_crawl_budget :
    (∀ (env : CrawlEnv) (bd : String) (mp fuel : Nat) (q v : List String) (p : Nat),
      p ≤ mp → (crawlLoop env bd mp fuel q v p).pages_processed ≤ mp) ∧
    (∀ (env : CrawlEnv) (bd : String) (mp fuel : Nat) (q v : List String) (p : Nat),
      q = [] ∨ mp ≤ p → crawlLoop env bd mp fuel q v p = ⟨q, v, p⟩) ∧
    ((crawl_site env5 ("https://example.com/") 2 16).final.pages_processed = 2 ∧
      (crawl_site env5 ("https://example.com/") 5 16).final.pages_processed = 5) := by
  refine ⟨?_, ?_, by decide, by decide⟩
  · intro env bd mp fuel
    induction fuel with
    | zero => intro q v p h; exact h
    | succ n ih =>
      intro q v p h
      cases q with
      | nil => exact h
      | cons url rest =>
        simp only [crawlLoop]
        cases hf : env.fetch url with
        | none =>
          dsimp only
          split_ifs
          all_goals first
            | exact h
            | exact ih _ _ _ h
        | some res =>
          dsimp only
          split_ifs with h1
          all_goals first
            | exact h
            | exact ih _ _ _ h
            | exact ih _ _ _ (show p + 1 ≤ mp by omega)
  · intro env bd mp fuel q v p h
    cases fuel with
    | zero => rfl
    | succ n =>
      rcases h with h | h
      · subst h; rfl
      · cases q with
        | nil => rfl
        | cons url rest =>
          simp only [crawlLoop]
          rw [if_pos h]

theorem c1_crawl_budget_witness :
    (0 ≤ 2 ∧
      (crawlLoop env5 ("example.com") 2 16 ["https://example.com/"] [] 0).pages_processed ≤ 2) ∧
    ((([] : List String) = [] ∨ 2 ≤ 0) ∧
      crawlLoop env5 ("example.com") 2 3 ([] : List String) [] 0 = ⟨[], [], 0⟩) :=
  ⟨⟨by omega, c1_crawl_budget.1 env5 ("example.com") 2 16 ["https://example.com/"] [] 0 (by omega)⟩,
   ⟨Or.inl rfl, c1_crawl_budget.2.1 env5 ("example.com") 2 3 [] [] 0 (Or.inl rfl)⟩⟩

/-- Claim C1 counterexample: on the concrete run the loop indeed
processes exactly 2 pages, but the crawl coroutine does not return that
count — its body has no return statement, so the call returns None, not
2. -/
theorem c1_returns_none_counterexample :
    (crawl_site env5 ("https://example.com/") 2 16).final.pages_processed = 2 ∧
    (crawl_site env5 ("https://example.com/") 2 16).ret ≠ some 2 :=
  ⟨by decide, by decide⟩

/-! ## Properties of the deduplicator -/


theorem keepIndices_append (normed : List Vec) :
    ∀ (rest keep : List Nat), ∃ t, keepIndices normed keep rest = keep ++ t := by
  intro rest
  induction rest with
  | nil => intro keep; exact ⟨[], by simp [keepIndices]⟩
  | cons i rest ih =>
    intro keep
    simp only [keepIndices]
    split_ifs with hdup
    · exact ih keep
    · obtain ⟨t, ht⟩ := ih (keep ++ [i])
      exact ⟨[i] ++ t, by rw [ht, List.append_assoc]⟩

theorem keepIndices_mem {normed : List Vec} :
    ∀ {rest keep : List Nat} {x : Nat},
      x ∈ keepIndices normed keep rest → x ∈ keep ∨ x ∈ rest := by
  intro rest
  induction rest with
  | nil => intro keep x hx; exact Or.inl (by simpa [keepIndices] using hx)
  | cons i rest ih =>
    intro keep x hx
    simp only [keepIndices] at hx
    split_ifs at hx with hdup
    · rcases ih hx with h | h
      · exact Or.inl h
      · exact Or.inr (List.mem_cons_of_mem _ h)
    · rcases ih hx with h | h
      · rcases List.mem_append.mp h with h | h
        · exact Or.inl h
        · exact Or.inr (List.mem_cons.mpr (Or.inl (List.mem_singleton.mp h)))
      · exact Or.inr (List.mem_cons_of_mem _ h)

theorem keepIndices_pairwise (normed : List Vec) :
    ∀ (rest keep : List Nat), keep.Pairwise (noSim normed) →
      (keepIndices normed keep rest).Pairwise (noSim normed) := by
  intro rest
  induction rest with
  | nil => intro keep hp; simpa [keepIndices] using hp
  | cons i rest ih =>
    intro keep hp
    simp only [keepIndices]
    split_ifs with hdup
    · exact ih keep hp
    · apply ih (keep ++ [i])
      rw [List.pairwise_append]
      refine ⟨hp, List.pairwise_singleton _ _, ?_⟩
      intro a ha b hb
      rw [List.mem_singleton] at hb
      subst hb
      intro hθ
      exact hdup ⟨a, ha, hθ⟩

theorem keepIndices_of_pairwise (normed : List Vec) :
    ∀ (rest keep : List Nat), (keep ++ rest).Pairwise (noSim normed) →
      keepIndices normed keep rest = keep ++ rest := by
  intro rest
  induction rest with
  | nil => intro keep _; simp [keepIndices]
  | cons i rest ih =>
    intro keep hp
    have hp' := hp
    rw [List.pairwise_append] at hp'
    obtain ⟨hkeep, hcons, hcross⟩ := hp'
    have hnd : ¬ isDupIn normed keep i := by
      rintro ⟨j, hj, hθ⟩
      exact hcross j hj i (List.mem_cons_self i rest) hθ
    simp only [keepIndices]
    rw [if_neg hnd]
    have hassoc : keep ++ i :: rest = (keep ++ [i]) ++ rest := by simp
    rw [hassoc] at hp
    rw [ih (keep ++ [i]) hp, ← hassoc]

/-- The full characterization of the greedy loop: when the pending index
list is strictly increasing and every pending index is larger than every
already-kept one, a pending index ends up kept exactly when no earlier
kept index flags it as a near duplicate. -/
theorem keepIndices_mem_iff (normed : List Vec) :
    ∀ (rest keep : List Nat), rest.Pairwise (· < ·) →
      (∀ j ∈ keep, ∀ i ∈ rest, j < i) →
      ∀ x ∈ rest,
        (x ∈ keepIndices normed keep rest ↔
          ¬ ∃ j ∈ keepIndices normed keep rest, j < x ∧
            DEDUP_THRESHOLD < dot (normed.getD x []) (normed.getD j [])) := by
  intro rest
  induction rest with
  | nil => intro keep _ _ x hx; exact absurd hx (List.not_mem_nil x)
  | cons i rest ih =>
    intro keep hsorted hlt x hx
    have hhead : ∀ y ∈ rest, i < y := (List.pairwise_cons.mp hsorted).1
    have hsorted' : rest.Pairwise (· < ·) := (List.pairwise_cons.mp hsorted).2
    simp only [keepIndices]
    by_cases hdup : isDupIn normed keep i
    · rw [if_pos hdup]
      rcases List.mem_cons.mp hx with hxi | hx'
      · subst hxi
        apply iff_of_false
        · intro hmem
          rcases keepIndices_mem hmem with hk | hr
          · exact lt_irrefl x (hlt x hk x (List.mem_cons_self x rest))
          · exact lt_irrefl x (hhead x hr)
        · intro hne
          apply hne
          obtain ⟨j, hj, hθ⟩ := hdup
          obtain ⟨t, ht⟩ := keepIndices_append normed rest keep
          exact ⟨j, by rw [ht]; exact List.mem_append_left _ hj,
            hlt j hj x (List.mem_cons_self x rest), hθ⟩
      · exact ih keep hsorted'
          (fun j hj i' hi' => hlt j hj i' (List.mem_cons_of_mem _ hi')) x hx'
    · rw [if_neg hdup]
      rcases List.mem_cons.mp hx with hxi | hx'
      · subst hxi
        apply iff_of_true
        · obtain ⟨t, ht⟩ := keepIndices_append normed rest (keep ++ [x])
          rw [ht]
          exact List.mem_append_left _ (List.mem_append_right _ (List.mem_singleton_self x))
        · rintro ⟨j, hj, hjx, hθ⟩
          rcases keepIndices_mem hj with hk | hr
          · rcases List.mem_append.mp hk with hk' | hk''
            · exact hdup ⟨j, hk', hθ⟩
            · rw [List.mem_singleton] at hk''
              subst hk''
              exact lt_irrefl _ hjx
          · exact absurd hjx (not_lt.mpr (le_of_lt (hhead j hr)))
      · apply ih (keep ++ [i]) hsorted' ?_ x hx'
        intro j hj i' hi'
        rcases List.mem_append.mp hj with hk | hi0
        · exact hlt j hk i' (List.mem_cons_of_mem _ hi')
        · rw [List.mem_singleton] at hi0
          subst hi0
          exact hhead i' hi'

theorem getD_map_of_lt {α β : Type _} (f : α → β) (l : List α) (dα : α) (dβ : β) {i : Nat}
    (h : i < l.length) : (l.map f).getD i dβ = f (l.getD i dα) := by
  rw [List.getD_eq_get l dα h, List.getD_eq_get (l.map f) dβ (by simpa using h)]
  simp [List.get_map]

/-- Restricting normed to the kept indices preserves the pairwise
no-similarity relation, now indexed by positions. -/
theorem pairwise_noSim_map (normed : List Vec) (keep : List Nat)
    (hpair : keep.Pairwise (noSim normed)) :
    (List.range keep.length).Pairwise
      (noSim (keep.map (fun i => normed.getD i []))) := by
  apply (List.pairwise_lt_range _).imp_of_mem
  intro a b ha hb hab
  rw [List.mem_range] at ha hb
  have hget := List.pairwise_iff_get.mp hpair ⟨a, ha⟩ ⟨b, hb⟩ hab
  unfold noSim at hget ⊢
  rw [getD_map_of_lt (fun i => normed.getD i []) keep 0 [] hb,
      getD_map_of_lt (fun i => normed.getD i []) keep 0 [] ha]
  rw [List.getD_eq_get keep 0 ha, List.getD_eq_get keep 0 hb]
  exact hget

theorem map_getD_range {α : Type _} (l : List α) (d : α) :
    (List.range l.length).map (fun i => l.getD i d) = l := by
  apply List.ext_get
  · simp
  · intro n h1 h2
    have hn : n < l.length := by simpa using h1
    simp only [List.get_map, List.get_range]
    exact List.getD_eq_get l d hn

theorem dedupKeep_ne_nil {vectors : List Vec} (hv : vectors ≠ []) :
    dedupKeep vectors ≠ [] := by
  obtain ⟨v, vs, rfl⟩ := List.exists_cons_of_ne_nil hv
  have hlen : ((v :: vs : List Vec).map normalize).length = vs.length + 1 := by simp
  simp only [dedupKeep, hlen, List.range_succ_eq_map]
  simp only [keepIndices]
  rw [if_neg (by rintro ⟨j, hj, -⟩; exact absurd hj (List.not_mem_nil j))]
  obtain ⟨t, ht⟩ := keepIndices_append ((v :: vs : List Vec).map normalize)
    ((List.range (vs.length)).map Nat.succ) ([] ++ [0])
  rw [ht]
  simp

theorem dedupKeep_mem_lt {vectors : List Vec} {x : Nat} (hx : x ∈ dedupKeep vectors) :
    x < vectors.length := by
  rw [dedupKeep] at hx
  rcases keepIndices_mem hx with h | h
  · exact absurd h (List.not_mem_nil x)
  · simpa using List.mem_range.mp h

/-- Claim C6: the deduplicator is idempotent — running it on its own
output changes nothing. -/
theorem c6_dedup_idempotent :
    ∀ (chunks : List String) (vectors : List Vec),
      deduplicate (deduplicate chunks vectors).1 (deduplicate chunks vectors).2
        = deduplicate chunks vectors := by
  intro chunks vectors
  by_cases hv : vectors = []
  · subst hv
    simp [deduplicate]
  · have hne : dedupKeep vectors ≠ [] := dedupKeep_ne_nil hv
    have hpair : (dedupKeep vectors).Pairwise (noSim (vectors.map normalize)) := by
      rw [dedupKeep]
      exact keepIndices_pairwise _ _ [] List.Pairwise.nil
    have hdef : deduplicate chunks vectors
        = ((dedupKeep vectors).map (fun i => chunks.getD i ""),
           (dedupKeep vectors).map (fun i => vectors.getD i [])) := by
      rw [deduplicate, if_neg (by simp [hv])]
    -- re-normalizing the kept original vectors reproduces the kept rows
    -- of normed, because normalization acts row by row
    have hnormed2 : (((dedupKeep vectors).map (fun i => vectors.getD i [])).map normalize)
        = (dedupKeep vectors).map (fun i => (vectors.map normalize).getD i []) := by
      rw [List.map_map]
      apply List.map_congr_left
      intro i hi
      have hilt := dedupKeep_mem_lt hi
      simp only [Function.comp]
      rw [getD_map_of_lt normalize vectors [] [] hilt]
    have hpair2 : (List.range (dedupKeep vectors).length).Pairwise
        (noSim (((dedupKeep vectors).map (fun i => vectors.getD i [])).map normalize)) := by
      rw [hnormed2]
      exact pairwise_noSim_map (vectors.map normalize) (dedupKeep vectors) hpair
    have hkeep2 : dedupKeep ((dedupKeep vectors).map (fun i => vectors.getD i []))
        = List.range (dedupKeep vectors).length := by
      have hlen2 : ((((dedupKeep vectors).map (fun i => vectors.getD i [])).map
          normalize)).length = (dedupKeep vectors).length := by simp
      rw [dedupKeep, hlen2]
      have := keepIndices_of_pairwise
        (((dedupKeep vectors).map (fun i => vectors.getD i [])).map normalize)
        (List.range (dedupKeep vectors).length) [] (by simpa using hpair2)
      simpa using this
    rw [hdef]
    rw [deduplicate, if_neg (by simp [hne]), hkeep2]
    have hcl : ((dedupKeep vectors).map (fun i => chunks.getD i "")).length
        = (dedupKeep vectors).length := by simp
    have hvl : ((dedupKeep vectors).map (fun i => vectors.getD i [])).length
        = (dedupKeep vectors).length := by simp
    rw [Prod.mk.injEq]
    constructor
    · rw [← hcl]
      exact map_getD_range _ _
    · rw [← hvl]
      exact map_getD_range _ _

/-- A vector that already has unit norm is unchanged by normalization. -/
theorem normalize_unit {v : Vec} (h : dot v v = 1) : normalize v = v := by
  simp only [normalize, norm2, h, Real.sqrt_one]
  rw [if_neg one_ne_zero]
  simp

/-- An index i of the vector list is dropped by the deduplicator exactly
when some kept index j before it has cosine similarity above the
threshold with it (similarity of the unit-normalized rows). -/
theorem dedupKeep_not_mem_iff (vectors : List Vec) (i : Nat) (h : i < vectors.length) :
    (i ∉ dedupKeep vectors ↔
      ∃ j ∈ dedupKeep vectors, j < i ∧
        DEDUP_THRESHOLD < dot (normalize (vectors.getD i []))
          (normalize (vectors.getD j []))) := by
  have hmem : i ∈ List.range (vectors.map normalize).length := by
    simpa using List.mem_range.mpr (by simpa using h)
  have hbase : i ∈ dedupKeep vectors ↔
      ¬ ∃ j ∈ dedupKeep vectors, j < i ∧
        DEDUP_THRESHOLD < dot ((vectors.map normalize).getD i [])
          ((vectors.map normalize).getD j []) :=
    keepIndices_mem_iff (vectors.map normalize) _ [] (List.pairwise_lt_range _)
      (fun j hj _ _ => absurd hj (List.not_mem_nil j)) i hmem
  have hdoteq : ∀ j ∈ dedupKeep vectors,
      dot ((vectors.map normalize).getD i []) ((vectors.map normalize).getD j [])
        = dot (normalize (vectors.getD i [])) (normalize (vectors.getD j [])) := by
    intro j hj
    rw [getD_map_of_lt normalize vectors [] [] h,
        getD_map_of_lt normalize vectors [] [] (dedupKeep_mem_lt hj)]
  constructor
  · intro hni
    by_contra hnE
    apply hni
    apply hbase.mpr
    rintro ⟨j, hj, hji, hθ⟩
    exact hnE ⟨j, hj, hji, by rw [← hdoteq j hj]; exact hθ⟩
  · rintro ⟨j, hj, hji, hθ⟩ hi
    exact (hbase.mp hi) ⟨j, hj, hji, by rw [hdoteq j hj]; exact hθ⟩


theorem dot_u5_u5 : dot u5 u5 = 1 := by
  norm_num [dot, u5]

theorem dot_v95_v95 : dot v95 v95 = 1 := by
  norm_num [dot, v95]

theorem dot_v95_u5 : dot v95 u5 = 19 / 20 := by
  norm_num [dot, v95, u5]

theorem dot_v951_v951 : dot v951 v951 = 1 := by
  norm_num [dot, v951]

theorem dot_v951_u5 : dot v951 u5 = 951 / 1000 := by
  norm_num [dot, v951, u5]

/-- Greedy run on a pair of unit vectors: the second is dropped exactly
when its similarity with the first exceeds the threshold. -/
theorem dedupKeep_pair {v w : Vec} (hv : dot v v = 1) (hw : dot w w = 1) :
    dedupKeep [v, w] = if DEDUP_THRESHOLD < dot w v then [0] else [0, 1] := by
  have hn : ([v, w] : List Vec).map normalize = [v, w] := by
    simp [normalize_unit hv, normalize_unit hw]
  simp only [dedupKeep, hn]
  have h2 : List.range (([v, w] : List Vec)).length = [0, 1] := rfl
  rw [h2]
  simp only [keepIndices]
  rw [if_neg (show ¬ isDupIn [v, w] [] 0 by
    rintro ⟨j, hj, -⟩; exact absurd hj (List.not_mem_nil j))]
  simp only [List.nil_append]
  have h1 : isDupIn [v, w] [0] 1 ↔ DEDUP_THRESHOLD < dot w v := by
    simp [isDupIn]
  by_cases hc : DEDUP_THRESHOLD < dot w v
  · rw [if_pos (h1.mpr hc), if_pos hc]
  · rw [if_neg (fun hd => hc (h1.mp hd)), if_neg hc]
    rfl

theorem deduplicate_pair {c₁ c₂ : String} {v w : Vec} (hv : dot v v = 1) (hw : dot w w = 1) :
    deduplicate [c₁, c₂] [v, w] =
      if DEDUP_THRESHOLD < dot w v then ([c₁], [v]) else ([c₁, c₂], [v, w]) := by
  rw [deduplicate, if_neg (by simp)]
  rw [dedupKeep_pair hv hw]
  by_cases hc : DEDUP_THRESHOLD < dot w v
  · rw [if_pos hc, if_pos hc]
    rfl
  · rw [if_neg hc, if_neg hc]
    rfl

/-- Claim C7: a chunk is removed by the deduplicator iff its
unit-normalized vector has cosine similarity strictly above 0.95 with an
earlier kept chunk's unit-normalized vector; similarity exactly 0.95
keeps both chunks, similarity 0.951 removes the later one. -/
theorem c7_dedup_threshold :
    (∀ (vectors : List Vec) (i : Nat), i < vectors.length →
      (i ∉ dedupKeep vectors ↔
        ∃ j ∈ dedupKeep vectors, j < i ∧
          DEDUP_THRESHOLD < dot (normalize (vectors.getD i []))
            (normalize (vectors.getD j [])))) ∧
    (dot (normalize v95) (normalize u5) = DEDUP_THRESHOLD ∧
      deduplicate ["c1", "c2"] [u5, v95] = (["c1", "c2"], [u5, v95])) ∧
    (DEDUP_THRESHOLD < dot (normalize v951) (normalize u5) ∧
      deduplicate ["c1", "c2"] [u5, v951] = (["c1"], [u5])) := by
  refine ⟨dedupKeep_not_mem_iff, ⟨?_, ?_⟩, ⟨?_, ?_⟩⟩
  · rw [normalize_unit dot_v95_v95, normalize_unit dot_u5_u5, dot_v95_u5]
    norm_num [DEDUP_THRESHOLD]
  · rw [deduplicate_pair dot_u5_u5 dot_v95_v95, if_neg]
    rw [dot_v95_u5]
    norm_num [DEDUP_THRESHOLD]
  · rw [normalize_unit dot_v951_v951, normalize_unit dot_u5_u5, dot_v951_u5]
    norm_num [DEDUP_THRESHOLD]
  · rw [deduplicate_pair dot_u5_u5 dot_v951_v951, if_pos]
    rw [dot_v951_u5]
    norm_num [DEDUP_THRESHOLD]

theorem c7_dedup_threshold_witness :
    1 < ([u5, v951] : List Vec).length ∧
      (1 ∉ dedupKeep [u5, v951] ↔
        ∃ j ∈ dedupKeep [u5, v951], j < 1 ∧
          DEDUP_THRESHOLD < dot (normalize (([u5, v951] : List Vec).getD 1 []))
            (normalize (([u5, v951] : List Vec).getD j []))) :=
  ⟨by simp, c7_dedup_threshold.1 [u5, v951] 1 (by simp)⟩

end Scraper
